import Mathlib

/-!
Verification development for the corn-grader service (src/app.py).

Embedding conventions:
- Python floats are embedded as rationals; all arithmetic in the claims is
  exact, so no rounding behaviour is modelled.
- Fallible Python code (a ZeroDivisionError, a function falling off the end
  and returning None) is embedded with Option.
- The detector gateway and the filesystem are external collaborators; they
  are modelled as oracle arguments to the functions that consult them.
-/

namespace CornGrader

/-- A detection in center form, as produced by the inference gateway:
center coordinates, width, height, confidence and a class label. -/
structure Detection where
  x : ℚ
  y : ℚ
  width : ℚ
  height : ℚ
  confidence : ℚ
  label : String
deriving DecidableEq

/-- A box in corner form, the tuple (x0, y0, x1, y1, confidence, class)
built by non_max_suppression from a Detection. -/
structure CBox where
  x0 : ℚ
  y0 : ℚ
  x1 : ℚ
  y1 : ℚ
  conf : ℚ
  label : String
deriving DecidableEq

/-- Corner conversion performed at the top of non_max_suppression. -/
def toCorner (p : Detection) : CBox :=
  ⟨p.x - p.width / 2, p.y - p.height / 2,
   p.x + p.width / 2, p.y + p.height / 2, p.confidence, p.label⟩

/-- Center conversion performed on the kept boxes at the end of
non_max_suppression. -/
def toCenter (b : CBox) : Detection :=
  ⟨(b.x0 + b.x1) / 2, (b.y0 + b.y1) / 2, b.x1 - b.x0, b.y1 - b.y0,
   b.conf, b.label⟩

/-- Area of a corner-form box, (x1 - x0) * (y1 - y0). -/
def areaOf (b : CBox) : ℚ := (b.x1 - b.x0) * (b.y1 - b.y0)

/-- Intersection area computed inside iou: clamped overlap of the two
coordinate ranges. -/
def interAreaOf (boxA boxB : CBox) : ℚ :=
  max 0 (min boxA.x1 boxB.x1 - max boxA.x0 boxB.x0) *
    max 0 (min boxA.y1 boxB.y1 - max boxA.y0 boxB.y0)

/-- The value of iou where its division is defined: intersection over
union, exactly the expression returned by the source. -/
def iou (boxA boxB : CBox) : ℚ :=
  interAreaOf boxA boxB / (areaOf boxA + areaOf boxB - interAreaOf boxA boxB)

/-- Fallible embedding of the source iou: the source divides by
boxAArea + boxBArea - interArea with no special case, so Python raises
ZeroDivisionError when that denominator is zero; that path is none. -/
def iou? (boxA boxB : CBox) : Option ℚ :=
  if areaOf boxA + areaOf boxB - interAreaOf boxA boxB = 0 then none
  else some (iou boxA boxB)

/-- Stable descending insertion by confidence: an element is placed
before the first earlier-sorted element whose confidence does not exceed
its own, so among equal confidences the original order is preserved. -/
def insertDesc (a : CBox) : List CBox → List CBox
  | [] => [a]
  | b :: bs => if b.conf ≤ a.conf then a :: b :: bs else b :: insertDesc a bs

/-- Stable sort by descending confidence. The source uses the stable
Python sorted with reverse true on the confidence key; any stable sort by
the same key computes the same list, and insertion sort is used here. -/
def sortDesc : List CBox → List CBox
  | [] => []
  | a :: as => insertDesc a (sortDesc as)

/-- The greedy suppression loop of non_max_suppression: pop the
highest-confidence remaining box, keep it, and drop every remaining box
whose iou with it reaches the threshold, regardless of class. -/
def nmsLoop (t : ℚ) : List CBox → List CBox
  | [] => []
  | chosen :: rest =>
      chosen :: nmsLoop t (rest.filter (fun b => decide (iou b chosen < t)))
termination_by l => l.length
decreasing_by
  simpa [Nat.lt_succ_iff] using List.length_filter_le _ _

/-- Embedding of non_max_suppression: corner conversion, stable
descending sort by confidence, greedy class-agnostic suppression, then
conversion back to center form. -/
def non_max_suppression (predictions : List Detection) (iou_threshold : ℚ) :
    List Detection :=
  ((nmsLoop iou_threshold (sortDesc (predictions.map toCorner))).map toCenter)

/-- Relabelling of a detection, used to state that suppression is
class-agnostic: it commutes with every relabelling of the input. -/
def relabel (f : String → String) (p : Detection) : Detection :=
  { p with label := f p.label }

/-- Relabelling of a corner-form box. -/
def relabelC (f : String → String) (b : CBox) : CBox :=
  { b with label := f b.label }

/-- One row of USDA_GRADES:
(name, max damage pct, max damage kernels, max heat pct, max heat kernels). -/
structure GradeRule where
  name : String
  max_damage_pct : ℚ
  max_damage_k : ℕ
  max_heat_pct : ℚ
  max_heat_k : ℕ
deriving DecidableEq

/-- The fixed ordered rule table USDA_GRADES from the source. -/
def USDA_GRADES : List GradeRule :=
  [⟨"U.S. No. 1", 3, 1, 1/10, 0⟩,
   ⟨"U.S. No. 2", 5, 2, 2/10, 0⟩,
   ⟨"U.S. No. 3", 7, 3, 5/10, 0⟩,
   ⟨"U.S. No. 4", 10, 5, 1, 0⟩,
   ⟨"U.S. No. 5", 15, 7, 3, 1⟩]

/-- The small-sample for loop of classify_grade: first rule whose
absolute damage and heat kernel counts are within bounds, scanning the
table in order; none when the loop falls through. -/
def scanSmall (damage_kernels heat_kernels : ℕ) : List GradeRule → Option String
  | [] => none
  | r :: rs =>
      if damage_kernels ≤ r.max_damage_k ∧ heat_kernels ≤ r.max_heat_k then
        some r.name
      else scanSmall damage_kernels heat_kernels rs

/-- The large-sample for loop of classify_grade: first rule whose damage
and heat percentages are within bounds. -/
def scanLarge (damage_pct heat_pct : ℚ) : List GradeRule → Option String
  | [] => none
  | r :: rs =>
      if damage_pct ≤ r.max_damage_pct ∧ heat_pct ≤ r.max_heat_pct then
        some r.name
      else scanLarge damage_pct heat_pct rs

/-- Embedding of classify_grade: branch on total_kernels < 100, scan the
table on the matching columns, fall back to Sample Grade. -/
def classify_grade (damage_pct : ℚ) (damage_kernels : ℕ) (heat_pct : ℚ)
    (heat_kernels : ℕ) (total_kernels : ℕ) : String :=
  if total_kernels < 100 then
    (scanSmall damage_kernels heat_kernels USDA_GRADES).getD "Sample Grade"
  else
    (scanLarge damage_pct heat_pct USDA_GRADES).getD "Sample Grade"

/-- Formulation of the small-sample scan following the words of the
claim: the first rule of the ordered table satisfying both count bounds. -/
def firstRuleByCounts (damage_kernels heat_kernels : ℕ) : Option GradeRule :=
  USDA_GRADES.find? fun r =>
    decide (damage_kernels ≤ r.max_damage_k) && decide (heat_kernels ≤ r.max_heat_k)

/-- Formulation of the large-sample scan following the words of the
claim: the first rule of the ordered table satisfying both percentage
bounds. -/
def firstRuleByPcts (damage_pct heat_pct : ℚ) : Option GradeRule :=
  USDA_GRADES.find? fun r =>
    decide (damage_pct ≤ r.max_damage_pct) && decide (heat_pct ≤ r.max_heat_pct)

/-- The encode-attempt loop of compress_image. The JPEG encoder is an
external primitive, abstracted as an oracle encSize giving the encoded
size in megabytes at each integer quality (the image itself is fixed
before the loop starts). Each attempt encodes at the current quality;
when the size fits the budget or the quality has reached the floor of
20, the buffer is persisted and its size returned (some); when the fixed
number of attempts is exhausted the Python function falls off the end,
persists nothing and returns None (none). -/
def compressLoop (encSize : ℕ → ℚ) (max_size_mb : ℚ) :
    ℕ → ℕ → Option ℚ
  | _, 0 => none
  | quality, attempts + 1 =>
      let size_mb := encSize quality
      if size_mb ≤ max_size_mb ∨ quality ≤ 20 then some size_mb
      else compressLoop encSize max_size_mb (max 20 (quality - 20)) attempts

/-- Embedding of compress_image restricted to its attempt loop (the
color-space normalization and the single downscale happen before the
loop and are folded into the encSize oracle): range(3) attempts starting
from the given quality. -/
def compress_image (encSize : ℕ → ℚ) (max_size_mb : ℚ) (quality : ℕ) :
    Option ℚ :=
  compressLoop encSize max_size_mb quality 3

/-- The counts dictionary built by the analysis stage, as an association
list in insertion order: each prediction bumps the count of its label,
first occurrence appends a fresh key. -/
def addCount (counts : List (String × ℕ)) (l : String) : List (String × ℕ) :=
  match counts.lookup l with
  | some _ => counts.map fun kv => if kv.1 = l then (kv.1, kv.2 + 1) else kv
  | none => counts ++ [(l, 1)]

/-- counts after folding every prediction of the suppressed set. -/
def countsOf (preds : List Detection) : List (String × ℕ) :=
  preds.foldl (fun cs p => addCount cs p.label) []

/-- The damage-class partition fixed in the source: every label other
than Normal counts as damage, and this single list of heat classes. -/
def heat_damage_classes : List String := ["Heat damage"]

/-- The result payload assembled by the analysis stage. The pct fields
hold the exact values used for grading; the stored payload additionally
rounds them to two decimals for display, which is exact at every value
appearing in the claims. The annotated-image file and raw_result
passthrough are external side effects, not part of the computed
statistics. -/
structure AnalysisResult where
  counts : List (String × ℕ)
  grade : String
  total_damage_pct : ℚ
  heat_damage_pct : ℚ
  total_kernels : ℕ
deriving DecidableEq

/-- Embedding of the statistics-and-grading stage of
process_image_async (the code after suppression): build counts, derive
totals and guarded percentages, and classify. -/
def analyze_detections (preds : List Detection) : AnalysisResult :=
  let counts := countsOf preds
  let normal_count := ((counts.lookup "Normal").getD 0)
  let total_kernels := (counts.map Prod.snd).sum
  let damage_kernels := total_kernels - normal_count
  let total_damage_pct : ℚ :=
    if total_kernels ≠ 0 then ((damage_kernels : ℚ) / total_kernels) * 100 else 0
  let heat_damage_count :=
    (heat_damage_classes.map fun c => (counts.lookup c).getD 0).sum
  let heat_damage_pct : ℚ :=
    if total_kernels ≠ 0 then ((heat_damage_count : ℚ) / total_kernels) * 100 else 0
  ⟨counts,
   classify_grade total_damage_pct damage_kernels heat_damage_pct
     heat_damage_count total_kernels,
   total_damage_pct, heat_damage_pct, total_kernels⟩

/-- Outcome of one inference call against the gateway: either a
prediction list, or an HTTPCallErrorError carrying a status code and a
message (its str form, which the job error handler records). -/
inductive InferResult where
  | ok (preds : List Detection)
  | err (status_code : ℕ) (msg : String)
deriving DecidableEq

/-- Terminal state of one job, with an audit of the compression budgets
passed to compress_image and the number of inference calls made. -/
inductive JobOutcome where
  | completed (budgets : List ℚ) (inferCalls : ℕ) (res : AnalysisResult)
  | errored (budgets : List ℚ) (inferCalls : ℕ) (msg : String)
deriving DecidableEq

/-- Embedding of process_image_async. The gateway is an oracle: o1 is
the outcome of the first inference call and o2 of the retry (consulted
only when the first call fails with status 413). The first compression
uses the default budget of 5 MB; the retry path compresses again with a
2 MB budget. A 413 on the retry sets the specific error message; any
other error message is recorded by the outer handler. The moisture and
weight arguments are received exactly as in the source, whose body never
reads them. The iou threshold is the default 3/10 of the source call. -/
def process_image_async (o1 o2 : InferResult) (moisture weight : ℚ) :
    JobOutcome :=
  match o1 with
  | .ok preds =>
      .completed [5] 1 (analyze_detections (non_max_suppression preds (3/10)))
  | .err c1 m1 =>
      if c1 = 413 then
        match o2 with
        | .ok preds =>
            .completed [5, 2] 2
              (analyze_detections (non_max_suppression preds (3/10)))
        | .err c2 m2 =>
            if c2 = 413 then
              .errored [5, 2] 2 "Image too large after compression"
            else
              .errored [5, 2] 2 m2
      else
        .errored [5] 1 m1

/-- A snapshot held in progress_store for one job id. -/
structure JobSnapshot where
  progress : ℕ
  status : String
  result : Option AnalysisResult
  error : Option String
deriving DecidableEq

/-- Response of the progress endpoint: 404 for an unknown id, else the
copied snapshot. -/
inductive ProgressResponse where
  | notFound
  | ok (data : JobSnapshot)
deriving DecidableEq

/-- The progress_store dictionary, as an association list with distinct
keys (id to snapshot). -/
def Store := List (String × JobSnapshot)

/-- Embedding of the get_progress route: unknown id gives 404; a known
id returns a copy of the snapshot, and when its status is completed the
entry is deleted before responding. Returns the response together with
the store after the read. -/
def get_progress (store : Store) (progress_id : String) :
    ProgressResponse × Store :=
  match List.lookup progress_id store with
  | none => (.notFound, store)
  | some data =>
      if data.status = "completed" then
        (.ok data, store.eraseP (fun kv => kv.1 == progress_id))
      else
        (.ok data, store)

/-- The 100-kernel sample of the end-to-end example: 96 Normal, 3 Mold
damage, 1 Heat damage detections (geometry irrelevant after
suppression). -/
def sample100 : List Detection :=
  List.replicate 96 ⟨0, 0, 1, 1, 1, "Normal"⟩ ++
    List.replicate 3 ⟨0, 0, 1, 1, 1, "Mold damage"⟩ ++
    [⟨0, 0, 1, 1, 1, "Heat damage"⟩]

/-- A completed-job snapshot used as a concrete store entry. -/
def snapDone : JobSnapshot := ⟨100, "completed", none, none⟩

/-- A one-entry store holding a completed job. -/
def storeDone : Store := [("job-a", snapDone)]

/-- Two overlapping concrete detections of different classes, used to
instantiate the suppression theorems. -/
def predsW : List Detection :=
  [⟨0, 0, 2, 2, 9/10, "Normal"⟩, ⟨1, 0, 2, 2, 8/10, "Mold damage"⟩]

lemma scanSmall_eq (dk hk : ℕ) (l : List GradeRule) :
    scanSmall dk hk l =
      (l.find? fun r =>
          decide (dk ≤ r.max_damage_k) && decide (hk ≤ r.max_heat_k)).map
        GradeRule.name := by
  induction l with
  | nil => rfl
  | cons r rs ih =>
      by_cases h1 : dk ≤ r.max_damage_k <;> by_cases h2 : hk ≤ r.max_heat_k <;>
        simp [scanSmall, List.find?_cons, h1, h2, ih]

lemma scanLarge_eq (dp hp : ℚ) (l : List GradeRule) :
    scanLarge dp hp l =
      (l.find? fun r =>
          decide (dp ≤ r.max_damage_pct) && decide (hp ≤ r.max_heat_pct)).map
        GradeRule.name := by
  induction l with
  | nil => rfl
  | cons r rs ih =>
      by_cases h1 : dp ≤ r.max_damage_pct <;> by_cases h2 : hp ≤ r.max_heat_pct <;>
        simp [scanLarge, List.find?_cons, h1, h2, ih]

/-- C6: classify_grade branches on total_kernels < 100, scanning the
fixed ordered rule table with absolute kernel counts on the small-sample
path and with percentages on the large-sample path, returning the first
rule satisfying both bounds and Sample Grade when none does; and with
totalKernels 50, damageKernels 1, heatKernels 0 it returns U.S. No. 1. -/
theorem C6_grader_paths :
    (∀ (damage_pct heat_pct : ℚ) (damage_kernels heat_kernels total_kernels : ℕ),
        classify_grade damage_pct damage_kernels heat_pct heat_kernels
            total_kernels =
          if total_kernels < 100 then
            match firstRuleByCounts damage_kernels heat_kernels with
            | some r => r.name
            | none => "Sample Grade"
          else
            match firstRuleByPcts damage_pct heat_pct with
            | some r => r.name
            | none => "Sample Grade") ∧
      classify_grade 0 1 0 0 50 = "U.S. No. 1" := by
  constructor
  · intro dp hp dk hk tk
    unfold classify_grade firstRuleByCounts firstRuleByPcts
    rw [scanSmall_eq, scanLarge_eq]
    split
    · cases h : List.find?
          (fun r => decide (dk ≤ r.max_damage_k) && decide (hk ≤ r.max_heat_k))
          USDA_GRADES <;> simp [h]
    · cases h : List.find?
          (fun r => decide (dp ≤ r.max_damage_pct) && decide (hp ≤ r.max_heat_pct))
          USDA_GRADES <;> simp [h]
  · decide

lemma countsOf_sample100 :
    countsOf sample100 =
      [("Normal", 96), ("Mold damage", 3), ("Heat damage", 1)] := by
  set_option maxRecDepth 20000 in decide

lemma classify_pct_example :
    ∀ damage_kernels heat_kernels : ℕ,
      classify_grade 4 damage_kernels 0 heat_kernels 200 = "U.S. No. 2" := by
  intro dk hk
  norm_num [classify_grade, scanLarge, USDA_GRADES]

lemma lookup_counts_normal :
    List.lookup "Normal"
        [("Normal", (96 : ℕ)), ("Mold damage", 3), ("Heat damage", 1)] =
      some 96 := by decide

lemma lookup_counts_heat :
    List.lookup "Heat damage"
        [("Normal", (96 : ℕ)), ("Mold damage", 3), ("Heat damage", 1)] =
      some 1 := by decide

lemma analyze_sample100 :
    analyze_detections sample100 =
      ⟨[("Normal", 96), ("Mold damage", 3), ("Heat damage", 1)],
        "U.S. No. 4", 4, 1, 100⟩ := by
  unfold analyze_detections
  rw [countsOf_sample100]
  simp only [lookup_counts_normal, lookup_counts_heat, heat_damage_classes,
    List.map_cons, List.map_nil, List.sum_cons, List.sum_nil,
    Option.getD_some]
  norm_num [classify_grade, scanLarge, USDA_GRADES]

/-- C1 counterexample: the first percentage-path example returns
U.S. No. 2 rather than U.S. No. 1 (damagePct 4.0 exceeds the 3.0 bound
of the first rule), and the 96/3/1 sample of 100 kernels does not grade
U.S. No. 1 either. -/
theorem C1_counterexample :
    classify_grade 4 8 0 0 200 ≠ "U.S. No. 1" ∧
      (analyze_detections sample100).grade ≠ "U.S. No. 1" := by
  rw [analyze_sample100, classify_pct_example 8 0]
  exact ⟨by decide, by decide⟩

/-- C1 amended: with totalKernels 200, damagePct 4.0, heatPct 0.0 the
grade is U.S. No. 2, independently of the kernel-count arguments; the
96/3/1 sample of 100 kernels takes the percentage path with
damagePct 4.0 and heatPct 1.0, and grades U.S. No. 4. -/
theorem C1_grading_examples :
    (∀ damage_kernels heat_kernels : ℕ,
        classify_grade 4 damage_kernels 0 heat_kernels 200 = "U.S. No. 2") ∧
      (analyze_detections sample100).total_kernels = 100 ∧
      (analyze_detections sample100).total_damage_pct = 4 ∧
      (analyze_detections sample100).heat_damage_pct = 1 ∧
      (analyze_detections sample100).grade = "U.S. No. 4" := by
  rw [analyze_sample100]
  exact ⟨classify_pct_example, rfl, rfl, rfl, rfl⟩

/-- C2 counterexample: with every encode attempt producing 10 MB against
a 5 MB budget and the default starting quality 85, the three attempts run
at qualities 85, 65, 45, never fit and never reach the quality floor of
20, so the function falls off the loop, persists nothing and returns
None. -/
theorem C2_counterexample :
    compress_image (fun _ => 10) 5 85 = none := by decide

/-- C2 amended: the loop always terminates within 3 encode attempts and
never raises, and whenever it returns a size that size was achieved at a
quality meeting the budget or the floor; but it returns a value on every
path only for starting qualities at most 60 — for larger starting
qualities (such as the default 85) all three attempts can fail the
budget with quality still above the floor, in which case nothing is
persisted and None is returned. -/
theorem C2_compress_contract :
    ∀ (encSize : ℕ → ℚ) (max_size_mb : ℚ) (quality : ℕ),
      (quality ≤ 60 →
          ∃ s, compress_image encSize max_size_mb quality = some s) ∧
      (∀ s, compress_image encSize max_size_mb quality = some s →
          s ≤ max_size_mb ∨ ∃ q2, q2 ≤ 20 ∧ s = encSize q2) ∧
      (compress_image encSize max_size_mb quality = none →
          60 < quality ∧ max_size_mb < encSize quality ∧
            max_size_mb < encSize (quality - 20) ∧
            max_size_mb < encSize (quality - 40)) := by
  intro E m q
  have h3 : compress_image E m q =
      if E q ≤ m ∨ q ≤ 20 then some (E q)
      else if E (max 20 (q - 20)) ≤ m ∨ max 20 (q - 20) ≤ 20 then
        some (E (max 20 (q - 20)))
      else if E (max 20 (max 20 (q - 20) - 20)) ≤ m ∨
          max 20 (max 20 (q - 20) - 20) ≤ 20 then
        some (E (max 20 (max 20 (q - 20) - 20)))
      else none := rfl
  refine ⟨?_, ?_, ?_⟩ <;> rw [h3]
  · intro hq
    have hA : max 20 (q - 20) ≤ 40 := Nat.max_le.mpr ⟨by omega, by omega⟩
    have hB : max 20 (max 20 (q - 20) - 20) ≤ 20 :=
      Nat.max_le.mpr ⟨le_refl _, by omega⟩
    split_ifs with c1 c2 c3
    · exact ⟨_, rfl⟩
    · exact ⟨_, rfl⟩
    · exact ⟨_, rfl⟩
    · exact absurd (Or.inr hB) c3
  · intro s hs
    split_ifs at hs with c1 c2 c3
    · obtain rfl : E q = s := by injection hs
      rcases c1 with h | h
      · exact Or.inl h
      · exact Or.inr ⟨q, h, rfl⟩
    · obtain rfl : E (max 20 (q - 20)) = s := by injection hs
      rcases c2 with h | h
      · exact Or.inl h
      · exact Or.inr ⟨_, h, rfl⟩
    · obtain rfl : E (max 20 (max 20 (q - 20) - 20)) = s := by injection hs
      rcases c3 with h | h
      · exact Or.inl h
      · exact Or.inr ⟨_, h, rfl⟩
  · intro hn
    split_ifs at hn with c1 c2 c3
    push_neg at c1 c2 c3
    have hq1 : 20 < q := c1.2
    have hq2 : 20 < max 20 (q - 20) := c2.2
    have hq2' : 20 < q - 20 := by
      rcases Nat.le_total (q - 20) 20 with h | h
      · rw [Nat.max_eq_left h] at hq2; omega
      · omega
    have e2 : max 20 (q - 20) = q - 20 := Nat.max_eq_right (by omega)
    rw [e2] at c2 c3
    have hq3 : 20 < max 20 (q - 20 - 20) := c3.2
    have hq3' : 20 < q - 20 - 20 := by
      rcases Nat.le_total (q - 20 - 20) 20 with h | h
      · rw [Nat.max_eq_left h] at hq3; omega
      · omega
    have e3 : max 20 (q - 20 - 20) = q - 20 - 20 := Nat.max_eq_right (by omega)
    rw [e3] at c3
    have e4 : q - 20 - 20 = q - 40 := by omega
    rw [e4] at c3
    exact ⟨by omega, c1.1, c2.1, c3.1⟩

/-- C2 witness: starting quality 50 is below 60, so the loop returns a
size. -/
theorem C2_compress_contract_witness :
    50 ≤ 60 ∧ ∃ s, compress_image (fun _ => 1) 5 50 = some s :=
  ⟨by decide, (C2_compress_contract (fun _ => 1) 5 50).1 (by decide)⟩

lemma lookup_eq_none_of_not_mem_keys (progress_id : String) (l : Store)
    (h : progress_id ∉ l.map Prod.fst) :
    List.lookup progress_id l = none := by
  induction l with
  | nil => rfl
  | cons kv rest ih =>
      obtain ⟨k, v⟩ := kv
      simp only [List.map_cons, List.mem_cons] at h
      push_neg at h
      have hb : (progress_id == k) = false := beq_eq_false_iff_ne.mpr h.1
      simp [List.lookup, hb, ih h.2]

lemma lookup_eraseP_eq_none (progress_id : String) (l : Store)
    (hnd : (l.map Prod.fst).Nodup) :
    List.lookup progress_id (l.eraseP fun kv => kv.1 == progress_id) = none := by
  induction l with
  | nil => rfl
  | cons kv rest ih =>
      obtain ⟨k, v⟩ := kv
      simp only [List.map_cons, List.nodup_cons] at hnd
      by_cases hk : k = progress_id
      · subst hk
        rw [List.eraseP_cons]
        simp only [beq_self_eq_true, cond_true]
        exact lookup_eq_none_of_not_mem_keys _ _ hnd.1
      · rw [List.eraseP_cons]
        have hb : ((k, v).1 == progress_id) = false :=
          beq_eq_false_iff_ne.mpr hk
        rw [hb]
        have hb2 : (progress_id == k) = false :=
          beq_eq_false_iff_ne.mpr (fun h => hk h.symm)
        simp only [cond_false, List.lookup, hb2]
        exact ih hnd.2

/-- C4: progress reads are one-shot for completed jobs only. For a store
with distinct keys holding snap under a given id: when snap has status
completed, the first read returns the snapshot and deletes the entry,
and the second read of the same id returns NotFound; when snap has
status processing or error, the read returns the snapshot leaving the
store unchanged, so a repeated read returns the same payload. -/
theorem C4_progress_read :
    ∀ (store : Store) (progress_id : String) (snap : JobSnapshot),
      (store.map Prod.fst).Nodup →
      List.lookup progress_id store = some snap →
      (snap.status = "completed" →
          get_progress store progress_id =
            (.ok snap, store.eraseP fun kv => kv.1 == progress_id) ∧
          (get_progress (get_progress store progress_id).2 progress_id).1 =
            .notFound) ∧
      (snap.status = "processing" ∨ snap.status = "error" →
          get_progress store progress_id = (.ok snap, store) ∧
          get_progress (get_progress store progress_id).2 progress_id =
            get_progress store progress_id) := by
  intro store progress_id snap hnd hlk
  constructor
  · intro hc
    have h1 : get_progress store progress_id =
        (.ok snap, store.eraseP fun kv => kv.1 == progress_id) := by
      unfold get_progress
      rw [hlk]
      simp [hc]
    refine ⟨h1, ?_⟩
    rw [h1]
    unfold get_progress
    rw [lookup_eraseP_eq_none progress_id store hnd]
  · intro hpe
    have hne : snap.status ≠ "completed" := by
      rcases hpe with h | h <;> rw [h] <;> decide
    have h1 : get_progress store progress_id = (.ok snap, store) := by
      unfold get_progress
      rw [hlk]
      simp [hne]
    exact ⟨h1, by rw [h1]; exact h1⟩

/-- C4 witness: a one-entry store with a completed job answers the first
read and returns NotFound on the second. -/
theorem C4_progress_read_witness :
    List.lookup "job-a" storeDone = some snapDone ∧
      (get_progress (get_progress storeDone "job-a").2 "job-a").1 =
        ProgressResponse.notFound :=
  ⟨by decide,
    ((C4_progress_read storeDone "job-a" snapDone (by decide) (by decide)).1
        (by decide)).2⟩

/-- C5: the job pipeline retries inference exactly once, with the
smaller 2 MB compression budget, solely on a 413 failure; a second 413
ends the job in an error with the message Image too large after
compression; and any non-413 inference failure ends the job in an error
recording that failure message, after a single inference call and only
the default 5 MB compression. -/
theorem C5_retry_policy :
    ∀ (o2 : InferResult) (moisture weight : ℚ) (preds : List Detection)
      (c : ℕ) (msg : String),
      process_image_async (.ok preds) o2 moisture weight =
          .completed [5] 1
            (analyze_detections (non_max_suppression preds (3/10))) ∧
      (c ≠ 413 →
          process_image_async (.err c msg) o2 moisture weight =
            .errored [5] 1 msg) ∧
      (∀ preds2,
          process_image_async (.err 413 msg) (.ok preds2) moisture weight =
            .completed [5, 2] 2
              (analyze_detections (non_max_suppression preds2 (3/10)))) ∧
      (∀ msg2,
          process_image_async (.err 413 msg) (.err 413 msg2) moisture weight =
            .errored [5, 2] 2 "Image too large after compression") ∧
      (∀ c2 msg2, c2 ≠ 413 →
          process_image_async (.err 413 msg) (.err c2 msg2) moisture weight =
            .errored [5, 2] 2 msg2) := by
  intro o2 m w preds c msg
  refine ⟨rfl, ?_, fun preds2 => ?_, fun msg2 => ?_, fun c2 msg2 hc2 => ?_⟩
  · intro hc
    simp [process_image_async, hc]
  · simp [process_image_async]
  · simp [process_image_async]
  · simp [process_image_async, hc2]

/-- C5 witness: a 500 failure on the first inference call ends the job
with that message after one call and no retry. -/
theorem C5_retry_policy_witness :
    (500 : ℕ) ≠ 413 ∧
      process_image_async (.err 500 "gateway failure") (.ok []) 0 0 =
        .errored [5] 1 "gateway failure" :=
  ⟨by decide,
    (C5_retry_policy (.ok []) 0 0 [] 500 "gateway failure").2.1 (by decide)⟩

/-- C9: the moisture and weight form fields do not influence the
analysis outcome: two runs over the same compressed image and detector
outcomes that differ only in moisture or weight produce identical
terminal job outcomes (counts, percentages, grade and all). -/
theorem C9_moisture_weight_independent :
    ∀ (o1 o2 : InferResult) (m1 w1 m2 w2 : ℚ),
      process_image_async o1 o2 m1 w1 = process_image_async o1 o2 m2 w2 :=
  fun _ _ _ _ _ _ => rfl

/-- C10: an empty detection set is not an error and divides by nothing:
the job completes, totalKernels is 0, both guarded percentages are 0,
and the small-sample path grades the zero counts U.S. No. 1. -/
theorem C10_empty_detections :
    ∀ (o2 : InferResult) (moisture weight : ℚ),
      process_image_async (.ok []) o2 moisture weight =
          .completed [5] 1 (analyze_detections []) ∧
      (analyze_detections []).total_kernels = 0 ∧
      (analyze_detections []).total_damage_pct = 0 ∧
      (analyze_detections []).heat_damage_pct = 0 ∧
      (analyze_detections []).grade = "U.S. No. 1" := by
  intro o2 m w
  have hnms : non_max_suppression [] (3/10) = [] := by
    simp [non_max_suppression, sortDesc, nmsLoop]
  exact ⟨by rw [show process_image_async (.ok []) o2 m w =
      .completed [5] 1 (analyze_detections (non_max_suppression [] (3/10)))
      from rfl, hnms],
    by decide, by decide, by decide, by decide⟩

lemma interAreaOf_nonneg (a b : CBox) : 0 ≤ interAreaOf a b :=
  mul_nonneg (le_max_left 0 _) (le_max_left 0 _)

lemma interAreaOf_comm (a b : CBox) : interAreaOf a b = interAreaOf b a := by
  unfold interAreaOf
  rw [min_comm a.x1 b.x1, max_comm a.x0 b.x0, min_comm a.y1 b.y1,
    max_comm a.y0 b.y0]

lemma interAreaOf_le_left (a b : CBox) (hx : a.x0 ≤ a.x1) (hy : a.y0 ≤ a.y1) :
    interAreaOf a b ≤ areaOf a := by
  unfold interAreaOf areaOf
  have h1 : max 0 (min a.x1 b.x1 - max a.x0 b.x0) ≤ a.x1 - a.x0 := by
    apply max_le (by linarith)
    have hm := min_le_left a.x1 b.x1
    have hM := le_max_left a.x0 b.x0
    linarith
  have h2 : max 0 (min a.y1 b.y1 - max a.y0 b.y0) ≤ a.y1 - a.y0 := by
    apply max_le (by linarith)
    have hm := min_le_left a.y1 b.y1
    have hM := le_max_left a.y0 b.y0
    linarith
  exact mul_le_mul h1 h2 (le_max_left 0 _) (by linarith)

lemma interAreaOf_le_right (a b : CBox) (hx : b.x0 ≤ b.x1)
    (hy : b.y0 ≤ b.y1) : interAreaOf a b ≤ areaOf b := by
  rw [interAreaOf_comm]
  exact interAreaOf_le_left b a hx hy

lemma iou_comm (a b : CBox) : iou a b = iou b a := by
  unfold iou
  rw [interAreaOf_comm, add_comm (areaOf a)]

lemma iouDen_pos (a b : CBox) (hax : a.x0 ≤ a.x1) (hay : a.y0 ≤ a.y1)
    (hbx : b.x0 ≤ b.x1) (hby : b.y0 ≤ b.y1)
    (hpos : 0 < areaOf a ∨ 0 < areaOf b) :
    0 < areaOf a + areaOf b - interAreaOf a b := by
  have h1 := interAreaOf_le_left a b hax hay
  have h2 := interAreaOf_le_right a b hbx hby
  have ha : 0 ≤ areaOf a := by
    unfold areaOf
    exact mul_nonneg (by linarith) (by linarith)
  have hb : 0 ≤ areaOf b := by
    unfold areaOf
    exact mul_nonneg (by linarith) (by linarith)
  rcases hpos with h | h
  · linarith
  · linarith

lemma iou?_eq_some (a b : CBox) (hax : a.x0 ≤ a.x1) (hay : a.y0 ≤ a.y1)
    (hbx : b.x0 ≤ b.x1) (hby : b.y0 ≤ b.y1)
    (hpos : 0 < areaOf a ∨ 0 < areaOf b) :
    iou? a b = some (iou a b) := by
  unfold iou?
  rw [if_neg (iouDen_pos a b hax hay hbx hby hpos).ne']

lemma iou_eq_zero_of_zero_area (a b : CBox) (hax : a.x0 ≤ a.x1)
    (hay : a.y0 ≤ a.y1) (hbx : b.x0 ≤ b.x1) (hby : b.y0 ≤ b.y1)
    (h : areaOf a = 0 ∨ areaOf b = 0) : iou a b = 0 := by
  have h0 := interAreaOf_nonneg a b
  have hz : interAreaOf a b = 0 := by
    rcases h with h | h
    · have := interAreaOf_le_left a b hax hay
      linarith
    · have := interAreaOf_le_right a b hbx hby
      linarith
  unfold iou
  rw [hz, zero_div]

/-- C3 counterexample: iou applied to two zero-area boxes has a zero
denominator, so the source raises ZeroDivisionError — the division by
zero the claim rules out does occur, and no 0 is returned for this
zero-area pair. -/
theorem C3_counterexample :
    iou? ⟨0, 0, 0, 0, 1, "Normal"⟩ ⟨0, 0, 0, 0, 1, "Normal"⟩ = none := by
  norm_num [iou?, areaOf, interAreaOf]

/-- C3 amended: for well-formed boxes, iou neither crashes nor produces
an undefined value whenever at least one box has positive area, and then
a zero-area box yields 0; but when both boxes have zero area the
denominator vanishes and the division raises (the zero-area special
case the spec prescribes is absent from the code). -/
theorem C3_iou_zero_area :
    ∀ a b : CBox, a.x0 ≤ a.x1 → a.y0 ≤ a.y1 → b.x0 ≤ b.x1 → b.y0 ≤ b.y1 →
      ((0 < areaOf a ∨ 0 < areaOf b →
          iou? a b = some (iou a b) ∧
            ((areaOf a = 0 ∨ areaOf b = 0) → iou? a b = some 0)) ∧
        (areaOf a = 0 → areaOf b = 0 → iou? a b = none)) := by
  intro a b hax hay hbx hby
  constructor
  · intro hpos
    have he := iou?_eq_some a b hax hay hbx hby hpos
    refine ⟨he, fun hz => ?_⟩
    rw [he, iou_eq_zero_of_zero_area a b hax hay hbx hby hz]
  · intro ha hb
    have h0 := interAreaOf_nonneg a b
    have h1 := interAreaOf_le_left a b hax hay
    have hz : interAreaOf a b = 0 := by linarith
    unfold iou?
    rw [if_pos (by rw [ha, hb, hz]; ring)]

/-- C3 witness: a degenerate box against a unit square is defined and
evaluates to 0. -/
theorem C3_iou_zero_area_witness :
    (0 : ℚ) < areaOf ⟨0, 0, 1, 1, 1, "Normal"⟩ ∧
      iou? ⟨0, 0, 0, 0, 1, "Normal"⟩ ⟨0, 0, 1, 1, 1, "Normal"⟩ = some 0 := by
  have hpos : (0 : ℚ) < areaOf ⟨0, 0, 1, 1, 1, "Normal"⟩ := by
    norm_num [areaOf]
  refine ⟨hpos, ?_⟩
  exact ((C3_iou_zero_area ⟨0, 0, 0, 0, 1, "Normal"⟩ ⟨0, 0, 1, 1, 1, "Normal"⟩
      (by norm_num) (by norm_num) (by norm_num) (by norm_num)).1
      (Or.inr hpos)).2 (Or.inl (by norm_num [areaOf]))

lemma insertDesc_perm (a : CBox) (l : List CBox) :
    (insertDesc a l).Perm (a :: l) := by
  induction l with
  | nil => exact List.Perm.refl _
  | cons b bs ih =>
      rw [insertDesc]
      split
      · exact List.Perm.refl _
      · exact (List.Perm.cons b ih).trans (List.Perm.swap a b bs)

lemma mem_insertDesc {x a : CBox} {l : List CBox} :
    x ∈ insertDesc a l ↔ x = a ∨ x ∈ l := by
  rw [(insertDesc_perm a l).mem_iff, List.mem_cons]

lemma sortDesc_perm (l : List CBox) : (sortDesc l).Perm l := by
  induction l with
  | nil => exact List.Perm.refl _
  | cons a as ih =>
      exact (insertDesc_perm a (sortDesc as)).trans (List.Perm.cons a ih)

lemma insertDesc_pairwise {a : CBox} {l : List CBox}
    (h : l.Pairwise fun x y => y.conf ≤ x.conf) :
    (insertDesc a l).Pairwise fun x y => y.conf ≤ x.conf := by
  induction l with
  | nil => simp [insertDesc]
  | cons b bs ih =>
      rw [List.pairwise_cons] at h
      rw [insertDesc]
      split
      · rename_i hba
        rw [List.pairwise_cons]
        refine ⟨?_, List.pairwise_cons.mpr ⟨h.1, h.2⟩⟩
        intro y hy
        rcases List.mem_cons.mp hy with rfl | hy
        · exact hba
        · exact le_trans (h.1 y hy) hba
      · rename_i hba
        push_neg at hba
        rw [List.pairwise_cons]
        refine ⟨?_, ih h.2⟩
        intro y hy
        rcases mem_insertDesc.mp hy with rfl | hy
        · exact le_of_lt hba
        · exact h.1 y hy

lemma sortDesc_sorted (l : List CBox) :
    (sortDesc l).Pairwise fun x y => y.conf ≤ x.conf := by
  induction l with
  | nil => simp [sortDesc]
  | cons a as ih => exact insertDesc_pairwise ih

lemma sortDesc_eq_self {l : List CBox}
    (h : l.Pairwise fun x y => y.conf ≤ x.conf) : sortDesc l = l := by
  induction l with
  | nil => rfl
  | cons a as ih =>
      rw [List.pairwise_cons] at h
      rw [sortDesc, ih h.2]
      cases as with
      | nil => rfl
      | cons b bs =>
          rw [insertDesc, if_pos (h.1 b (List.mem_cons_self b bs))]

lemma nmsLoop_sublist (t : ℚ) (l : List CBox) :
    List.Sublist (nmsLoop t l) l := by
  induction l using nmsLoop.induct t with
  | case1 => simp [nmsLoop]
  | case2 chosen rest ih =>
      rw [nmsLoop]
      exact List.Sublist.cons₂ chosen (ih.trans (List.filter_sublist rest))

lemma nmsLoop_subset {t : ℚ} {l : List CBox} {x : CBox}
    (hx : x ∈ nmsLoop t l) : x ∈ l :=
  (nmsLoop_sublist t l).subset hx

lemma nmsLoop_pairwise (t : ℚ) (l : List CBox) :
    (nmsLoop t l).Pairwise fun x y => iou y x < t := by
  induction l using nmsLoop.induct t with
  | case1 => simp [nmsLoop]
  | case2 chosen rest ih =>
      rw [nmsLoop, List.pairwise_cons]
      refine ⟨?_, ih⟩
      intro y hy
      have hyf : y ∈ rest.filter (fun b => decide (iou b chosen < t)) :=
        nmsLoop_subset hy
      have hb : (fun b => decide (iou b chosen < t)) y = true :=
        @List.of_mem_filter _ (fun b => decide (iou b chosen < t)) y rest hyf
      exact of_decide_eq_true hb

lemma nmsLoop_eq_self {t : ℚ} {l : List CBox}
    (h : l.Pairwise fun x y => iou y x < t) : nmsLoop t l = l := by
  induction l with
  | nil => rw [nmsLoop]
  | cons c rest ih =>
      rw [List.pairwise_cons] at h
      rw [nmsLoop]
      have hf : rest.filter (fun b => decide (iou b c < t)) = rest :=
        List.filter_eq_self.mpr fun b hb => decide_eq_true (h.1 b hb)
      rw [hf, ih h.2]

lemma toCenter_toCorner (p : Detection) : toCenter (toCorner p) = p := by
  cases p
  simp only [toCorner, toCenter, Detection.mk.injEq]
  refine ⟨by ring, by ring, by ring, by ring, trivial, trivial⟩

lemma toCorner_toCenter (b : CBox) : toCorner (toCenter b) = b := by
  cases b
  simp only [toCorner, toCenter, CBox.mk.injEq]
  refine ⟨by ring, by ring, by ring, by ring, trivial, trivial⟩

lemma areaOf_toCorner (p : Detection) :
    areaOf (toCorner p) = p.width * p.height := by
  simp only [areaOf, toCorner]
  ring

lemma toCorner_wf {p : Detection} (h : 0 < p.width ∧ 0 < p.height) :
    (toCorner p).x0 ≤ (toCorner p).x1 ∧ (toCorner p).y0 ≤ (toCorner p).y1 ∧
      0 < areaOf (toCorner p) := by
  obtain ⟨hw, hh⟩ := h
  refine ⟨?_, ?_, ?_⟩
  · show p.x - p.width / 2 ≤ p.x + p.width / 2
    linarith
  · show p.y - p.height / 2 ≤ p.y + p.height / 2
    linarith
  · rw [areaOf_toCorner]
    exact mul_pos hw hh

lemma mem_keep_cases {preds : List Detection} {t : ℚ} {b : CBox}
    (hb : b ∈ nmsLoop t (sortDesc (preds.map toCorner))) :
    ∃ p ∈ preds, b = toCorner p := by
  have h1 : b ∈ sortDesc (preds.map toCorner) := nmsLoop_subset hb
  have h2 : b ∈ preds.map toCorner := (sortDesc_perm _).subset h1
  rcases List.mem_map.mp h2 with ⟨p, hp, rfl⟩
  exact ⟨p, hp, rfl⟩

lemma insertDesc_relabel (f : String → String) (a : CBox) (l : List CBox) :
    insertDesc (relabelC f a) (l.map (relabelC f)) =
      (insertDesc a l).map (relabelC f) := by
  induction l with
  | nil => rfl
  | cons b bs ih =>
      rw [List.map_cons, insertDesc, insertDesc]
      by_cases hc : b.conf ≤ a.conf
      · rw [if_pos hc,
          if_pos (show (relabelC f b).conf ≤ (relabelC f a).conf from hc),
          List.map_cons, List.map_cons]
      · rw [if_neg hc,
          if_neg (show ¬(relabelC f b).conf ≤ (relabelC f a).conf from hc),
          List.map_cons, ih]

lemma sortDesc_relabel (f : String → String) (l : List CBox) :
    sortDesc (l.map (relabelC f)) = (sortDesc l).map (relabelC f) := by
  induction l with
  | nil => rfl
  | cons a as ih =>
      rw [List.map_cons, sortDesc, sortDesc, ih, insertDesc_relabel]

lemma nmsLoop_relabel (f : String → String) (t : ℚ) (l : List CBox) :
    nmsLoop t (l.map (relabelC f)) = (nmsLoop t l).map (relabelC f) := by
  induction l using nmsLoop.induct t with
  | case1 => simp [nmsLoop]
  | case2 chosen rest ih =>
      rw [List.map_cons, nmsLoop, nmsLoop, List.filter_map]
      have hc : ((fun b => decide (iou b (relabelC f chosen) < t)) ∘
          relabelC f) = (fun b => decide (iou b chosen < t)) := rfl
      rw [hc, ih, List.map_cons]

lemma nms_relabel (f : String → String) (preds : List Detection) (t : ℚ) :
    non_max_suppression (preds.map (relabel f)) t =
      (non_max_suppression preds t).map (relabel f) := by
  unfold non_max_suppression
  have h1 : (preds.map (relabel f)).map toCorner =
      (preds.map toCorner).map (relabelC f) := by
    rw [List.map_map, List.map_map]
    exact rfl
  rw [h1, sortDesc_relabel, nmsLoop_relabel, List.map_map, List.map_map]
  exact rfl

/-- C7: under the positive-area box invariant, non_max_suppression
returns a subset of its input by content, ordered by nonincreasing
confidence, in which every pair of kept boxes has a defined
intersection-over-union strictly below the threshold (so the source
divisions cannot fail on kept pairs); and it is class-agnostic:
relabelling every input class commutes with suppression, so the kept
geometry never depends on the labels. -/
theorem C7_nms_properties :
    ∀ (preds : List Detection) (t : ℚ),
      (∀ p ∈ preds, 0 < p.width ∧ 0 < p.height) →
      (∀ d ∈ non_max_suppression preds t, d ∈ preds) ∧
      (non_max_suppression preds t).Pairwise
        (fun a b => b.confidence ≤ a.confidence) ∧
      (non_max_suppression preds t).Pairwise
        (fun a b => ∃ v, iou? (toCorner a) (toCorner b) = some v ∧ v < t) ∧
      (∀ f, non_max_suppression (preds.map (relabel f)) t =
          (non_max_suppression preds t).map (relabel f)) := by
  intro preds t h
  refine ⟨?_, ?_, ?_, fun f => nms_relabel f preds t⟩
  · intro d hd
    rcases List.mem_map.mp hd with ⟨b, hb, rfl⟩
    rcases mem_keep_cases hb with ⟨p, hp, rfl⟩
    rw [toCenter_toCorner]
    exact hp
  · have hK : (nmsLoop t (sortDesc (preds.map toCorner))).Pairwise
        fun x y => y.conf ≤ x.conf :=
      List.Pairwise.sublist (nmsLoop_sublist t _) (sortDesc_sorted _)
    exact List.Pairwise.map toCenter (fun a b hab => hab) hK
  · have hP : (nmsLoop t (sortDesc (preds.map toCorner))).Pairwise
        fun x y => iou y x < t := nmsLoop_pairwise t _
    have hP2 : (nmsLoop t (sortDesc (preds.map toCorner))).Pairwise
        fun x y => ∃ v, iou? x y = some v ∧ v < t := by
      refine hP.imp_of_mem ?_
      intro x y hx hy hxy
      rcases mem_keep_cases hx with ⟨p, hp, rfl⟩
      rcases mem_keep_cases hy with ⟨q, hq, rfl⟩
      obtain ⟨hax, hay, hpa⟩ := toCorner_wf (h p hp)
      obtain ⟨hbx, hby, hqa⟩ := toCorner_wf (h q hq)
      refine ⟨iou (toCorner p) (toCorner q),
        iou?_eq_some _ _ hax hay hbx hby (Or.inl hpa), ?_⟩
      rw [iou_comm]
      exact hxy
    refine List.Pairwise.map toCenter ?_ hP2
    intro a b hab
    rcases hab with ⟨v, hv, hvt⟩
    refine ⟨v, ?_, hvt⟩
    rw [toCorner_toCenter, toCorner_toCenter]
    exact hv

/-- C7 witness: two overlapping positive-area detections instantiate the
invariant and yield a confidence-sorted suppression output. -/
theorem C7_nms_properties_witness :
    (∀ p ∈ predsW, 0 < p.width ∧ 0 < p.height) ∧
      (non_max_suppression predsW (3/10)).Pairwise
        (fun a b => b.confidence ≤ a.confidence) :=
  ⟨by decide, (C7_nms_properties predsW (3/10) (by decide)).2.1⟩

/-- C8: non_max_suppression is idempotent — suppressing an already
suppressed list at the same threshold changes nothing, since the output
is already sorted by confidence and pairwise below the threshold. -/
theorem C8_nms_idempotent :
    ∀ (preds : List Detection) (t : ℚ),
      non_max_suppression (non_max_suppression preds t) t =
        non_max_suppression preds t := by
  intro preds t
  unfold non_max_suppression
  have h1 : ∀ K : List CBox, (K.map toCenter).map toCorner = K := by
    intro K
    rw [List.map_map]
    have e : List.map (toCorner ∘ toCenter) K = List.map id K :=
      List.map_congr_left fun b _ => toCorner_toCenter b
    rw [e, List.map_id]
  rw [h1]
  have hsorted : (nmsLoop t (sortDesc (preds.map toCorner))).Pairwise
      fun x y => y.conf ≤ x.conf :=
    List.Pairwise.sublist (nmsLoop_sublist t _) (sortDesc_sorted _)
  rw [sortDesc_eq_self hsorted, nmsLoop_eq_self (nmsLoop_pairwise t _)]

end CornGrader
